import Mathlib

/-!
Verification development for the CT_Scraper repository.

We shallowly embed the scraping scripts' checkpoint/resume logic
(`get_start_index`, `update_progress`), the Selenium fetch loop
(`limited_get`), the driver loop of `scrape_all_categories_products`,
the pagination-discovery functions (`extract_pagination_info`,
`get_max_pages`) and the review extractors (`extract_reviews` of
`scraping_reviews_2.0/3.0/4.0_test`) as executable Lean functions, and
prove or refute the specification's claims about them.
-/

namespace CTScraper

/-! ### Python string primitives

`pyIsSpace`, `pyStrip` model `str.strip()` (ASCII whitespace); `pyInt`
models `int(s)` for decimal literals with an optional sign (returning
`none` where Python raises `ValueError`; numeric-literal underscores and
non-ASCII digits are not modelled). -/

def pyIsSpace (c : Char) : Bool :=
  c.toNat == 32 || c.toNat == 9 || c.toNat == 10 || c.toNat == 13 ||
  c.toNat == 11 || c.toNat == 12

def isDigitC (c : Char) : Bool :=
  48 ≤ c.toNat && c.toNat ≤ 57

def digitVal (c : Char) : Nat := c.toNat - 48

def pyStripChars (l : List Char) : List Char :=
  ((l.dropWhile pyIsSpace).reverse.dropWhile pyIsSpace).reverse

def pyStrip (s : String) : String := String.mk (pyStripChars s.data)

def digitsToNat (l : List Char) : Nat :=
  l.foldl (fun a c => a * 10 + digitVal c) 0

def parseDigits : List Char → Option Nat
  | [] => none
  | l => if l.all isDigitC then some (digitsToNat l) else none

def pyIntChars : List Char → Option Int
  | [] => none
  | c :: rest =>
    if c = '+' then (parseDigits rest).map Int.ofNat
    else if c = '-' then (parseDigits rest).map (fun n => -(Int.ofNat n))
    else (parseDigits (c :: rest)).map Int.ofNat

def pyInt (s : String) : Option Int := pyIntChars (pyStripChars s.data)

/-! Decimal rendering of integers, modelling Python's `str(i)` as used by
`update_progress` (which writes `str(index)` to the progress file). The
digit recursion is fuelled so that it reduces definitionally. -/

def digitChar : Nat → Char
  | 0 => '0' | 1 => '1' | 2 => '2' | 3 => '3' | 4 => '4'
  | 5 => '5' | 6 => '6' | 7 => '7' | 8 => '8' | _ => '9'

def natDigitsAux : Nat → Nat → List Char
  | 0, _ => []
  | f + 1, n =>
    if n < 10 then [digitChar n]
    else natDigitsAux f (n / 10) ++ [digitChar (n % 10)]

def natDigits (n : Nat) : List Char := natDigitsAux (n + 1) n

def natStr (n : Nat) : String := String.mk (natDigits n)

def intStr : Int → String
  | Int.ofNat m => natStr m
  | Int.negSucc m => String.mk ('-' :: natDigits (m + 1))

/-! Round-trip lemmas: parsing the decimal rendering of a natural number
recovers the number. These connect `update_progress` to
`get_start_index`. -/

theorem digitChar_isDigit : ∀ n < 10, isDigitC (digitChar n) = true := by decide

theorem digitVal_digitChar : ∀ n < 10, digitVal (digitChar n) = n := by decide

theorem digitsToNat_append_single (l : List Char) (c : Char) :
    digitsToNat (l ++ [c]) = 10 * digitsToNat l + digitVal c := by
  simp [digitsToNat, List.foldl_append, Nat.mul_comm]

theorem natDigitsAux_spec :
    ∀ fuel n, n < fuel →
      natDigitsAux fuel n ≠ [] ∧ (natDigitsAux fuel n).all isDigitC = true ∧
      digitsToNat (natDigitsAux fuel n) = n := by
  intro fuel
  induction fuel with
  | zero => intro n h; omega
  | succ f ih =>
    intro n h
    by_cases h10 : n < 10
    · refine ⟨by simp [natDigitsAux, h10], ?_, ?_⟩
      · simp [natDigitsAux, h10, digitChar_isDigit n h10]
      · simp [natDigitsAux, h10, digitsToNat, digitVal_digitChar n h10]
    · have hd : n / 10 < f := by omega
      obtain ⟨h1, h2, h3⟩ := ih (n / 10) hd
      have heq : natDigitsAux (f + 1) n =
          natDigitsAux f (n / 10) ++ [digitChar (n % 10)] := by
        simp [natDigitsAux, h10]
      refine ⟨by simp [heq], ?_, ?_⟩
      · simp only [heq, List.all_append]
        simp [h2, digitChar_isDigit (n % 10) (Nat.mod_lt _ (by norm_num))]
      · rw [heq, digitsToNat_append_single, h3,
          digitVal_digitChar (n % 10) (Nat.mod_lt _ (by norm_num))]
        omega

theorem natDigits_ne_nil (n : Nat) : natDigits n ≠ [] :=
  (natDigitsAux_spec (n + 1) n (Nat.lt_succ_self n)).1

theorem natDigits_all_digits (n : Nat) : (natDigits n).all isDigitC = true :=
  (natDigitsAux_spec (n + 1) n (Nat.lt_succ_self n)).2.1

theorem digitsToNat_natDigits (n : Nat) : digitsToNat (natDigits n) = n :=
  (natDigitsAux_spec (n + 1) n (Nat.lt_succ_self n)).2.2

theorem digit_not_space (c : Char) (h : isDigitC c = true) : pyIsSpace c = false := by
  simp only [isDigitC, Bool.and_eq_true, decide_eq_true_eq] at h
  simp only [pyIsSpace, Bool.or_eq_false_iff, beq_eq_false_iff_ne, ne_eq]
  omega

theorem dropWhile_space_of_digits (l : List Char) (h : l.all isDigitC = true) :
    l.dropWhile pyIsSpace = l := by
  cases l with
  | nil => rfl
  | cons c rest =>
    have hc : isDigitC c = true := by
      simp only [List.all_cons, Bool.and_eq_true] at h; exact h.1
    simp [List.dropWhile, digit_not_space c hc]

theorem pyStripChars_of_digits (l : List Char) (h : l.all isDigitC = true) :
    pyStripChars l = l := by
  have hrev : l.reverse.all isDigitC = true := by
    simp only [List.all_eq_true] at h ⊢
    intro c hc; exact h c (List.mem_reverse.mp hc)
  rw [pyStripChars, dropWhile_space_of_digits l h,
    dropWhile_space_of_digits l.reverse hrev, List.reverse_reverse]

theorem parseDigits_natDigits (n : Nat) : parseDigits (natDigits n) = some n := by
  have h1 := natDigits_ne_nil n
  have h2 := natDigits_all_digits n
  have h3 := digitsToNat_natDigits n
  cases hl : natDigits n with
  | nil => exact absurd hl h1
  | cons c rest =>
    rw [hl] at h2 h3
    simp [parseDigits, h2, h3]

theorem digit_ne_plus (c : Char) (h : isDigitC c = true) : c ≠ '+' := by
  intro he; subst he; simp [isDigitC] at h

theorem digit_ne_minus (c : Char) (h : isDigitC c = true) : c ≠ '-' := by
  intro he; subst he; simp [isDigitC] at h

theorem pyInt_natStr (n : Nat) : pyInt (natStr n) = some (Int.ofNat n) := by
  have h2 := natDigits_all_digits n
  rw [pyInt, natStr]
  show pyIntChars (pyStripChars (natDigits n)) = some (Int.ofNat n)
  rw [pyStripChars_of_digits _ h2]
  cases hl : natDigits n with
  | nil => exact absurd hl (natDigits_ne_nil n)
  | cons c rest =>
    rw [hl] at h2
    have hc : isDigitC c = true := by
      simp only [List.all_cons, Bool.and_eq_true] at h2; exact h2.1
    rw [pyIntChars]
    simp only [digit_ne_plus c hc, digit_ne_minus c hc, if_false]
    rw [← hl, parseDigits_natDigits n]
    rfl

/-! ### HTML document model

A parsed page body, standing for the `BeautifulSoup` tree. `HtmlList` is
a bespoke list of nodes so that all traversals are structural and reduce
definitionally. `find` / `findAll` search the node's descendants in
document (pre-)order, as BeautifulSoup's `find` / `find_all` do. -/

mutual

inductive Html where
  | text (s : String)
  | tag (name : String) (attrs : List (String × String)) (children : HtmlList)

inductive HtmlList where
  | nil
  | cons (h : Html) (t : HtmlList)

end

def HtmlList.toList : HtmlList → List Html
  | .nil => []
  | .cons h t => h :: t.toList

def hl : List Html → HtmlList
  | [] => .nil
  | h :: t => .cons h (hl t)

def Html.isTag : Html → Bool
  | .tag _ _ _ => true
  | .text _ => false

def Html.attr : Html → String → Option String
  | .text _, _ => none
  | .tag _ as _, k => (as.find? (fun p => p.1 == k)).map (fun p => p.2)

def Html.childTags : Html → List Html
  | .text _ => []
  | .tag _ _ cs => cs.toList.filter Html.isTag

mutual

def Html.descend : Html → List Html
  | .text _ => []
  | .tag _ _ cs => HtmlList.descend cs

def HtmlList.descend : HtmlList → List Html
  | .nil => []
  | .cons c cs => c :: (Html.descend c ++ HtmlList.descend cs)

end

def findAll (p : Html → Bool) (h : Html) : List Html :=
  (Html.descend h).filter p

def findFirst (p : Html → Bool) (h : Html) : Option Html :=
  (findAll p h).head?

mutual

def Html.texts : Html → List String
  | .text s => [s]
  | .tag _ _ cs => HtmlList.texts cs

def HtmlList.texts : HtmlList → List String
  | .nil => []
  | .cons c cs => Html.texts c ++ HtmlList.texts cs

end

/-- Model of `get_text(strip=True)` (and, with `sep := " "`, of
`get_text(separator=" ", strip=True)`): join the stripped non-empty text
fragments of all descendants. -/
def getTextSep (sep : String) (h : Html) : String :=
  String.intercalate sep (((Html.texts h).map pyStrip).filter (fun s => s ≠ ""))

def getText (h : Html) : String := getTextSep "" h

/-! Model of `find_next_sibling`: pre-order search returning the matched
node together with its following siblings. -/

mutual

def Html.findWS (p : Html → Bool) : Html → Option (Html × List Html)
  | .text _ => none
  | .tag _ _ cs => HtmlList.findWS p cs

def HtmlList.findWS (p : Html → Bool) : HtmlList → Option (Html × List Html)
  | .nil => none
  | .cons c cs =>
    if p c then some (c, cs.toList)
    else match Html.findWS p c with
      | some r => some r
      | none => HtmlList.findWS p cs

end

/-! BeautifulSoup attribute matching: a `class_` query string matches a
multi-valued `class` attribute when it equals one of the classes or the
attribute's exact full string. -/

def splitClasses (s : String) : List String :=
  (s.split (fun c => pyIsSpace c)).filter (fun t => t ≠ "")

def matchesClass (q : String) (h : Html) : Bool :=
  match h.attr "class" with
  | none => false
  | some v => q == v || (splitClasses v).contains q

def hasName (n : String) (h : Html) : Bool :=
  match h with
  | .tag m _ _ => m == n
  | .text _ => false

def hasId (i : String) (h : Html) : Bool :=
  h.attr "id" == some i

/-- Substring test, modelling Python's `pat in s`. -/
def isPre : List Char → List Char → Bool
  | [], _ => true
  | _ :: _, [] => false
  | a :: as, b :: bs => a == b && isPre as bs

def containsChars (pat : List Char) : List Char → Bool
  | [] => pat.isEmpty
  | c :: rest => isPre pat (c :: rest) || containsChars pat rest

def containsSub (s pat : String) : Bool := containsChars pat.data s.data

/-- First match of the regex `page=(\d+)` in a string, greedy digits,
modelling `re.search(r"page=(\d+)", href)`. -/
def pageAt : List Char → Option Nat
  | 'p' :: 'a' :: 'g' :: 'e' :: '=' :: rest =>
    match rest.takeWhile isDigitC with
    | [] => none
    | ds => some (digitsToNat ds)
  | _ => none

def searchPageNum : List Char → Option Nat
  | [] => none
  | c :: rest =>
    match pageAt (c :: rest) with
    | some n => some n
    | none => searchPageNum rest

def findPageParam (s : String) : Option Nat := searchPageNum s.data

/-! ### Selectors used by the scrapers -/

def reviewsContainerSel (h : Html) : Bool := hasName "div" h && hasId "reviews" h

def nameSel (h : Html) : Bool := matchesClass "h5 fw-bold mb-2" h

def roleSel (h : Html) : Bool := matchesClass "text-ash mb-2" h

def infoSel (h : Html) : Bool :=
  hasName "div" h &&
  matchesClass "col-12 col-md-6 col-lg-12 pt-3 pt-md-0 pt-lg-3 text-ash" h

def colLg7Sel (h : Html) : Bool := hasName "div" h && matchesClass "col-lg-7" h

def ms1SpanSel (h : Html) : Bool := hasName "span" h && matchesClass "ms-1" h

def starsWrapperSpanSel (h : Html) : Bool :=
  hasName "span" h && matchesClass "stars-wrapper" h

def starsWrapperAnySel (h : Html) : Bool := matchesClass "stars-wrapper" h

def ulPaginationSel (h : Html) : Bool := hasName "ul" h && matchesClass "pagination" h

/-! ### Pagination discovery

`extract_pagination_info` models the function of that name in
`scraping_reviews_2.0/3.0/4.0_test` (identical in all three): parse the
text of the second-last `<li>` of `<ul class="pagination">` as an int,
defaulting to 1 on any failure. `get_max_pages` models the function in
`scrape_capterra_products_seleium_prod_server.py`: the maximum
`page=(\d+)` marker over the pagination's anchor hrefs, default 1. -/

def extract_pagination_info (page : Html) : Int :=
  match findFirst ulPaginationSel page with
  | none => 1
  | some pag =>
    let li_items := findAll (hasName "li") pag
    if 2 ≤ li_items.length then
      match pyInt (getText (li_items.getD (li_items.length - 2) (Html.text ""))) with
      | some n => n
      | none => 1
    else 1

def hrefMarkers (pag : Html) : List Nat :=
  (findAll (fun h => hasName "a" h && (h.attr "href").isSome) pag).filterMap
    (fun a => (a.attr "href").bind (fun href => findPageParam href))

def get_max_pages (page : Html) : Int :=
  match findFirst ulPaginationSel page with
  | none => 1
  | some pag =>
    match hrefMarkers pag with
    | [] => 1
    | nums => Int.ofNat (nums.foldl max 0)

/-- Modelled from the spec's words for comparison (claim C6): "returns the
maximum observed page number" among "the numeric markers of the page's
navigation control", "defaulting to exactly 1 when no navigation control
is present or no numeric markers are found". The numeric markers of the
control are the page numbers its `li` items display. -/
def specMaxNumericMarker (page : Html) : Int :=
  match findFirst ulPaginationSel page with
  | none => 1
  | some pag =>
    match (findAll (hasName "li") pag).filterMap (fun li => pyInt (getText li)) with
    | [] => 1
    | nums => (nums.foldl max 1 : Int)

/-! ### Record extraction (`extract_reviews`)

One structure per script version, mirroring the dict keys each version
builds for a review. -/

structure Record20 where
  name : String
  role : String
  industryEmp : String
  useDuration : String
  rating : String
deriving DecidableEq, Repr

structure Record30 where
  name : String
  rawRole : String
  rawIndustryEmp : String
  useDuration : String
  rating : String
deriving DecidableEq, Repr

structure Record40 where
  name : String
  rawRole : String
  rawIndustryEmp : String
  useDuration : String
  rating : String
  comment : String
  advantages : String
  disadvantages : String
deriving DecidableEq, Repr

/-- The candidate record elements: the direct child tags of
`<div id="reviews">` (empty when the container is absent). -/
def candidates (page : Html) : List Html :=
  match findFirst reviewsContainerSel page with
  | none => []
  | some c => c.childTags

/-- The "Industry & Employee" / "Use Duration" pair: first and second tag
child of the info container; shared by all three extractor versions
(`useReplace` selects whether the 3.0/4.0 `replace` of the fixed label is
applied to the duration). -/
def infoFields (useReplace : Bool) (review : Html) : String × String :=
  match findFirst infoSel review with
  | none => ("", "")
  | some info =>
    let children := info.childTags
    let fst := match children with
      | [] => ""
      | c :: _ => getText c
    let snd := match children with
      | _ :: c2 :: _ =>
        if useReplace then
          pyStrip ((getText c2).replace "Verwendete die Software für:" "")
        else getText c2
      | _ => ""
    (fst, snd)

/-- One review of `scraping_reviews_2.0.py::extract_reviews`. -/
def extractOne20 (review : Html) : Record20 :=
  { name := match findFirst nameSel review with
      | some el => getText el
      | none => ""
    role := match findFirst roleSel review with
      | some el => getText el
      | none => ""
    industryEmp := (infoFields false review).1
    useDuration := (infoFields false review).2
    rating := match findFirst colLg7Sel review with
      | none => ""
      | some d =>
        match findFirst starsWrapperAnySel d with
        | none => ""
        | some stars => getText stars }

def extract_reviews_v2 (page : Html) : List Record20 :=
  (candidates page).map extractOne20

/-- One review of `scraping_reviews_3.0.py::extract_reviews`. -/
def extractOne30 (review : Html) : Record30 :=
  { name := match findFirst nameSel review with
      | some el => getText el
      | none => ""
    rawRole := match findFirst roleSel review with
      | some el => getText el
      | none => ""
    rawIndustryEmp := (infoFields true review).1
    useDuration := (infoFields true review).2
    rating := match findFirst colLg7Sel review with
      | none => ""
      | some d =>
        match findFirst ms1SpanSel d with
        | none => ""
        | some m => getText m }

def extract_reviews_v3 (page : Html) : List Record30 :=
  (candidates page).map extractOne30

/-- The Comment/Advantages/Disadvantages scan of
`scraping_reviews_4.0_test.py`: iterate over the review's paragraph
texts; a paragraph containing a label either holds the comment (after
removing the label) or designates the following paragraph as the
advantages/disadvantages text. -/
def scanParas (ts : List String) : String × String × String :=
  (List.range ts.length).foldl
    (fun acc i =>
      let t := ts.getD i ""
      if containsSub t "Kommentare:" then
        (pyStrip (t.replace "Kommentare:" ""), acc.2.1, acc.2.2)
      else if containsSub t "Vorteile:" then
        if i + 1 < ts.length then (acc.1, ts.getD (i + 1) "", acc.2.2) else acc
      else if containsSub t "Nachteile:" then
        if i + 1 < ts.length then (acc.1, acc.2.1, ts.getD (i + 1) "") else acc
      else acc)
    ("", "", "")

/-- One review of `scraping_reviews_4.0_test.py::extract_reviews`. -/
def extractOne40 (review : Html) : Record40 :=
  let cad := scanParas ((findAll (hasName "p") review).map (getTextSep " "))
  { name := match findFirst nameSel review with
      | some el => getText el
      | none => ""
    rawRole := match findFirst roleSel review with
      | some el => getText el
      | none => ""
    rawIndustryEmp := (infoFields true review).1
    useDuration := (infoFields true review).2
    rating := match Html.findWS starsWrapperSpanSel review with
      | none => ""
      | some (_, sibs) =>
        match sibs.find? ms1SpanSel with
        | none => ""
        | some sp => getText sp
    comment := cad.1
    advantages := cad.2.1
    disadvantages := cad.2.2 }

def extract_reviews_v4 (page : Html) : List Record40 :=
  (candidates page).map extractOne40

/-! ### Checkpoint store (`get_start_index` / progress file)

The progress file is `none` when absent, otherwise its string content. -/

def loadCheckpoint : Option String → Option Int
  | none => none
  | some s => pyInt s

/-- `get_start_index` of `scraping_reviews_4.0_test.py` /
`scrape_capterra_products_seleium_prod_server.py`: stored index + 1 when
the file exists and parses as an int; 0 when the file is absent or any
exception occurs while reading/parsing it. -/
def get_start_index (fs : Option String) : Int :=
  match loadCheckpoint fs with
  | some n => n + 1
  | none => 0

/-! Python list slicing (`l[a:b]`, `l[a:]`), including negative indices. -/

def pyIdx (len : Nat) (k : Int) : Nat :=
  if 0 ≤ k then min k.toNat len else (len + k).toNat

def pySlice (l : List α) (a b : Int) : List α :=
  (l.take (pyIdx l.length b)).drop (pyIdx l.length a)

def pySliceFrom (l : List α) (a : Int) : List α :=
  l.drop (pyIdx l.length a)

/-! ### The Backoff Fetcher (`limited_get`)

`limited_get(url, driver, max_wait=36000)` is driven by the page sources
the browser returns (or exceptions). We model the environment as a
script: one `Option String` per attempt, `none` for an exception raised
by `driver.get`. The loop classifies each page source and either returns
it, or backs off; the running `total_wait` equals the seconds slept so
far, and the loop breaks with `None` when the pre-sleep check
`total_wait >= max_wait` fires (so the failing delay is never slept). -/

/-- Model of `str.lower()` (ASCII case folding). -/
def pyLower (s : String) : String := String.mk (s.data.map Char.toLower)

def isRateBody (s : String) : Bool :=
  containsSub (pyLower s) "too many requests" || containsSub s "429"

def isCaptchaBody (s : String) : Bool :=
  containsSub (pyLower s) "captcha" || containsSub (pyLower s) "i am not a robot"

/-- The rate-limit backoff of `limited_get`:
`min(60 * (2 ** (attempt - 1)), max_wait)`. -/
def rateDelay (maxWait a : Nat) : Nat := min (60 * 2 ^ (a - 1)) maxWait

/-- The exception/CAPTCHA backoff of `limited_get` (and the per-attempt
delay of `fetch_page` in `scraping_reviews_3.0.py`): `attempt * 5`. -/
def transientDelay (a : Nat) : Nat := a * 5

inductive LG where
  | going (attempt slept : Nat)
  | done (result : Option String) (slept : Nat)
deriving DecidableEq, Repr

def lgStep (maxWait : Nat) : LG → Option String → LG
  | LG.done r w, _ => LG.done r w
  | LG.going a w, none =>
    let d := transientDelay a
    if maxWait ≤ w + d then LG.done none w else LG.going (a + 1) (w + d)
  | LG.going a w, some s =>
    if isRateBody s then
      let d := rateDelay maxWait a
      if maxWait ≤ w + d then LG.done none w else LG.going (a + 1) (w + d)
    else if isCaptchaBody s then
      let d := transientDelay a
      if maxWait ≤ w + d then LG.done none w else LG.going (a + 1) (w + d)
    else LG.done (some s) w

def limited_get_run (maxWait : Nat) (script : List (Option String)) : LG :=
  script.foldl (lgStep maxWait) (LG.going 1 0)

def sleptOf : LG → Nat
  | LG.going _ w => w
  | LG.done _ w => w

/-- Loop invariant of `limited_get`: the attempt counter starts at 1, each
retry sleeps at least 5 seconds, and a state that is still running (or
has finished) has slept strictly less than `max_wait` seconds. -/
def lgInv (maxWait : Nat) : LG → Prop
  | LG.going a w => 1 ≤ a ∧ 5 * (a - 1) ≤ w ∧ w < maxWait
  | LG.done _ w => w < maxWait

theorem lgStep_inv {maxWait : Nat} {st : LG} (o : Option String)
    (h : lgInv maxWait st) : lgInv maxWait (lgStep maxWait st o) := by
  cases st with
  | done r w => cases o <;> exact h
  | going a w =>
    obtain ⟨h1, h2, h3⟩ := h
    have ht : transientDelay a = a * 5 := rfl
    cases o with
    | none =>
      simp only [lgStep, transientDelay]
      split
      · exact h3
      · refine ⟨by omega, by omega, by omega⟩
    | some s =>
      simp only [lgStep]
      split
      · split
        · exact h3
        · rename_i hrate hcap
          have hd5 : 5 ≤ rateDelay maxWait a := by
            have hp : 0 < 2 ^ (a - 1) := pow_pos (by norm_num) _
            rcases Nat.le_total (60 * 2 ^ (a - 1)) maxWait with hle | hle
            · have : rateDelay maxWait a = 60 * 2 ^ (a - 1) := by
                simp [rateDelay, Nat.min_eq_left hle]
              omega
            · have : rateDelay maxWait a = maxWait := by
                simp [rateDelay, Nat.min_eq_right hle]
              omega
          refine ⟨by omega, by omega, by omega⟩
      · split
        · split
          · exact h3
          · simp only [transientDelay]
            refine ⟨by omega, by omega, by omega⟩
        · exact h3

theorem limited_get_run_inv (maxWait : Nat) (hpos : 0 < maxWait)
    (script : List (Option String)) : lgInv maxWait (limited_get_run maxWait script) := by
  rw [limited_get_run]
  have : lgInv maxWait (LG.going 1 0) := ⟨le_refl 1, by omega, hpos⟩
  generalize hst : LG.going 1 0 = st at this ⊢
  clear hst
  induction script generalizing st with
  | nil => exact this
  | cons o rest ih => exact ih _ (lgStep_inv o this)

/-! ### The Driver's per-category retry loop
(`scrape_all_categories_products`, lines 251-281)

`while not success:` retries the category forever; each failed attempt
sleeps `min(max_delay, base_delay * 2 ** retry_count)` with
`base_delay = 5`, `max_delay = 60`. The loop is driven by a script of
attempt outcomes (`true` = `get_category_product_links` succeeded);
the result is whether it has succeeded after consuming the script,
together with the total seconds slept. -/

def category_retry_loop : Nat → List Bool → Bool × Nat
  | _, [] => (false, 0)
  | rc, ok :: rest =>
    if ok then (true, 0)
    else
      let d := min 60 (5 * 2 ^ rc)
      let r := category_retry_loop (rc + 1) rest
      (r.1, d + r.2)

/-! ### The Scrape Driver (`scrape_all_categories_products`)

One `Cat` is a work unit: the product links its scrape would yield, and
the outcome script of its retry loop (`true` = the attempt succeeded).
Processing emits an event trace: a heartbeat at the top of each retry
iteration; on success one `persist` per link (the `writer.writerow`
calls), a `flush` (`csvfile.flush()`), and — after the retry loop — a
`commit` (`update_progress(idx)`). A category whose script never
succeeds ends the observed trace (the `while not success` loop would
keep retrying). -/

structure Cat where
  links : List String
  attempts : List Bool
deriving DecidableEq, Repr

inductive Ev where
  | heartbeat (i : Int)
  | persist (i : Int) (link : String)
  | flush
  | commit (i : Int)
deriving DecidableEq, Repr

def attemptEvents (i : Int) (links : List String) : List Bool → List Ev × Bool
  | [] => ([], false)
  | ok :: rest =>
    if ok then (Ev.heartbeat i :: (links.map (Ev.persist i) ++ [Ev.flush]), true)
    else
      let r := attemptEvents i links rest
      (Ev.heartbeat i :: r.1, r.2)

def catEvents (i : Int) (c : Cat) : List Ev × Bool :=
  let r := attemptEvents i c.links c.attempts
  (r.1 ++ (if r.2 then [Ev.commit i] else []), r.2)

def runPairs : Int → List Cat → List Ev
  | _, [] => []
  | i, c :: rest =>
    let r := catEvents i c
    if r.2 then r.1 ++ runPairs (i + 1) rest else r.1

/-- One Driver run: resume point from the progress file, then process
`categories[start_index:]` with `enumerate(..., start=start_index)`. -/
def driverRunFrom (fs : Option String) (cats : List Cat) : List Ev :=
  runPairs (get_start_index fs) (pySliceFrom cats (get_start_index fs))

/-- Durable state: the progress file's content, the unflushed CSV buffer,
and the durably persisted `(unit index, record)` pairs. -/
structure DState where
  file : Option String
  buffer : List (Int × String)
  durable : List (Int × String)
deriving DecidableEq, Repr

def dInit : DState := ⟨none, [], []⟩

def stepEv (st : DState) : Ev → DState
  | Ev.heartbeat _ => st
  | Ev.persist i l => { st with buffer := st.buffer ++ [(i, l)] }
  | Ev.flush => { st with buffer := [], durable := st.durable ++ st.buffer }
  | Ev.commit i => { st with file := some (intStr i) }

def replay (st : DState) (evs : List Ev) : DState := evs.foldl stepEv st

def commitsOf (evs : List Ev) : List Int :=
  evs.filterMap (fun e => match e with | Ev.commit i => some i | _ => none)

/-- A multi-run execution item: a Driver run observed up to an optional
crash point (`none` = the run was not cut short), or an external
corruption of the progress file. -/
inductive XItem where
  | runTo (crashAt : Option Nat)
  | corruptF (s : String)
deriving DecidableEq, Repr

def execStep (cats : List Cat) : DState × List Int → XItem → DState × List Int
  | (st, done), XItem.runTo cr =>
    let evs := driverRunFrom st.file cats
    let evs := match cr with
      | none => evs
      | some k => evs.take k
    (replay { st with buffer := [] } evs, done ++ commitsOf evs)
  | (st, done), XItem.corruptF s => ({ st with file := some s }, done)

def execD (cats : List Cat) (items : List XItem) : DState × List Int :=
  items.foldl (execStep cats) (dInit, [])

/-- All checkpoint values committed over an execution, in order. -/
def execCommits (cats : List Cat) (items : List XItem) : List Int :=
  (execD cats items).2

/-! ### The review Driver of `scraping_reviews_4.0_test.py`

`main` computes `start_index = get_start_index()`, slices
`reader[start_index:start_index+1]` and enumerates it with
`start=start_index`, fetching each enumerated product's link. The work
unit indices it fetches: -/

def run40Fetched (fs : Option String) (reader : List String) : List Int :=
  let s := get_start_index fs
  (List.range (pySlice reader s (s + 1)).length).map (fun k => s + Int.ofNat k)

/-! ### The per-product pipeline of `scraping_reviews_2.0.py`

`main` fetches the product link, extracts its reviews, then loops
`for page in range(1, max_page + 1)` fetching `f"{link}?page={page}"` and
extending the review list; every review is tagged with the category and
product link and written to the output CSV. The page oracle stands for
`fetch_page`. -/

def pyRange (a b : Int) : List Int :=
  if a < b then (List.range (b - a).toNat).map (fun k => a + Int.ofNat k) else []

def processProduct20 (oracle : String → Option Html) (cat link : String) :
    List (String × String × Record20) :=
  match oracle link with
  | none => []
  | some body =>
    let revs := (extract_reviews_v2 body).map (fun r => (cat, link, r))
    let pagRows := (pyRange 1 (extract_pagination_info body + 1)).flatMap
      (fun p =>
        match oracle (link ++ "?page=" ++ intStr p) with
        | none => []
        | some b => (extract_reviews_v2 b).map (fun r => (cat, link, r)))
    revs ++ pagRows

/-! ### Trace lemmas for the Driver -/

def evIdx : Ev → Option Int
  | Ev.heartbeat i => some i
  | Ev.persist i _ => some i
  | Ev.flush => none
  | Ev.commit i => some i

theorem attemptEvents_mem (i : Int) (links : List String) (atts : List Bool) :
    ∀ e ∈ (attemptEvents i links atts).1,
      e = Ev.flush ∨ e = Ev.heartbeat i ∨ ∃ l, l ∈ links ∧ e = Ev.persist i l := by
  induction atts with
  | nil => simp [attemptEvents]
  | cons ok rest ih =>
    intro e he
    by_cases hok : ok
    · subst hok
      have he' : e ∈ Ev.heartbeat i :: (links.map (Ev.persist i) ++ [Ev.flush]) := he
      rcases List.mem_cons.mp he' with rfl | he2
      · exact Or.inr (Or.inl rfl)
      · rcases List.mem_append.mp he2 with he3 | he3
        · rcases List.mem_map.mp he3 with ⟨l, hl, rfl⟩
          exact Or.inr (Or.inr ⟨l, hl, rfl⟩)
        · rcases List.mem_cons.mp he3 with rfl | he4
          · exact Or.inl rfl
          · exact absurd he4 (List.not_mem_nil e)
    · simp only [Bool.not_eq_true] at hok
      subst hok
      have he' : e ∈ Ev.heartbeat i :: (attemptEvents i links rest).1 := he
      rcases List.mem_cons.mp he' with rfl | he2
      · exact Or.inr (Or.inl rfl)
      · exact ih e he2

theorem commit_not_mem_attemptEvents (i j : Int) (links : List String)
    (atts : List Bool) : Ev.commit j ∉ (attemptEvents i links atts).1 := by
  intro h
  rcases attemptEvents_mem i links atts _ h with h' | h' | ⟨l, _, h'⟩ <;> simp at h'

theorem attemptEvents_success (i : Int) (links : List String) (atts : List Bool)
    (h : (attemptEvents i links atts).2 = true) :
    ∃ hbs, (∀ e ∈ hbs, e = Ev.heartbeat i) ∧
      (attemptEvents i links atts).1 =
        hbs ++ (links.map (Ev.persist i) ++ [Ev.flush]) := by
  induction atts with
  | nil => simp [attemptEvents] at h
  | cons ok rest ih =>
    by_cases hok : ok
    · subst hok
      exact ⟨[Ev.heartbeat i], by simp, by simp [attemptEvents]⟩
    · simp only [Bool.not_eq_true] at hok
      subst hok
      simp only [attemptEvents, Bool.false_eq_true, if_false] at h ⊢
      obtain ⟨hbs, hhbs, heq⟩ := ih h
      exact ⟨Ev.heartbeat i :: hbs, by simpa using hhbs, by simp [heq]⟩

theorem catEvents_mem (i : Int) (c : Cat) :
    ∀ e ∈ (catEvents i c).1, e = Ev.flush ∨ evIdx e = some i := by
  intro e he
  simp only [catEvents, List.mem_append] at he
  rcases he with he | he
  · rcases attemptEvents_mem i c.links c.attempts e he with rfl | rfl | ⟨l, _, rfl⟩
    · exact Or.inl rfl
    · exact Or.inr rfl
    · exact Or.inr rfl
  · rcases Decidable.em ((attemptEvents i c.links c.attempts).2 = true) with hok | hok
    · simp only [hok, if_true, List.mem_singleton] at he
      subst he
      exact Or.inr rfl
    · simp [hok] at he

theorem runPairs_mem_idx :
    ∀ (cs : List Cat) (s : Int), ∀ e ∈ runPairs s cs,
      e = Ev.flush ∨ ∃ j, evIdx e = some j ∧ s ≤ j := by
  intro cs
  induction cs with
  | nil => simp [runPairs]
  | cons c rest ih =>
    intro s e he
    rw [runPairs] at he
    by_cases hok : (catEvents s c).2 = true
    · simp only [hok, if_true, List.mem_append] at he
      rcases he with he | he
      · rcases catEvents_mem s c e he with h' | h'
        · exact Or.inl h'
        · exact Or.inr ⟨s, h', le_refl s⟩
      · rcases ih (s + 1) e he with h' | ⟨j, hj, hsj⟩
        · exact Or.inl h'
        · exact Or.inr ⟨j, hj, by omega⟩
    · simp only [hok, if_false] at he
      rcases catEvents_mem s c e he with h' | h'
      · exact Or.inl h'
      · exact Or.inr ⟨s, h', le_refl s⟩

theorem persist_mem_runPairs_le {cs : List Cat} {s i : Int} {l : String}
    (h : Ev.persist i l ∈ runPairs s cs) : s ≤ i := by
  rcases runPairs_mem_idx cs s _ h with h' | ⟨j, hj, hsj⟩
  · simp at h'
  · simp only [evIdx, Option.some_inj] at hj
    omega

theorem commit_mem_runPairs_le {cs : List Cat} {s i : Int}
    (h : Ev.commit i ∈ runPairs s cs) : s ≤ i := by
  rcases runPairs_mem_idx cs s _ h with h' | ⟨j, hj, hsj⟩
  · simp at h'
  · simp only [evIdx, Option.some_inj] at hj
    omega

/-! Replay computations. -/

theorem replay_append (st : DState) (a b : List Ev) :
    replay st (a ++ b) = replay (replay st a) b := by
  simp [replay, List.foldl_append]

theorem replay_heartbeats (st : DState) (hbs : List Ev) (i : Int)
    (h : ∀ e ∈ hbs, e = Ev.heartbeat i) : replay st hbs = st := by
  induction hbs generalizing st with
  | nil => rfl
  | cons e rest ih =>
    have he : e = Ev.heartbeat i := h e (List.mem_cons_self e rest)
    subst he
    exact ih st (fun e' he' => h e' (List.mem_cons_of_mem _ he'))

theorem replay_persists (st : DState) (i : Int) (links : List String) :
    replay st (links.map (Ev.persist i)) =
      { st with buffer := st.buffer ++ links.map (fun l => (i, l)) } := by
  induction links generalizing st with
  | nil => simp [replay]
  | cons l rest ih =>
    have step1 : replay st ((l :: rest).map (Ev.persist i)) =
        replay { st with buffer := st.buffer ++ [(i, l)] } (rest.map (Ev.persist i)) := rfl
    rw [step1, ih]
    simp

theorem replay_success_attempt (st : DState) (i : Int) (links : List String)
    (atts : List Bool) (h : (attemptEvents i links atts).2 = true) :
    ∀ l ∈ links, (i, l) ∈ (replay st (attemptEvents i links atts).1).durable := by
  intro l hl
  obtain ⟨hbs, hhbs, heq⟩ := attemptEvents_success i links atts h
  rw [heq, replay_append, replay_heartbeats st hbs i hhbs, replay_append,
    replay_persists]
  simp only [replay, List.foldl_cons, List.foldl_nil]
  show (i, l) ∈ st.durable ++ (st.buffer ++ links.map (fun l => (i, l)))
  simp only [List.mem_append]
  exact Or.inr (Or.inr (List.mem_map.mpr ⟨l, hl, rfl⟩))

/-- Splitting a list that ends in a distinguished element: if the split
point's element does not occur in the prefix list, the split is at the
end. -/
theorem append_single_split {l pre suf : List Ev} {c x : Ev}
    (h : l ++ [c] = pre ++ x :: suf) (hx : x ∉ l) :
    pre = l ∧ x = c ∧ suf = [] := by
  induction pre generalizing l with
  | nil =>
    simp only [List.nil_append] at h ⊢
    cases l with
    | nil =>
      simp only [List.nil_append, List.cons.injEq] at h
      exact ⟨rfl, h.1.symm, h.2.symm⟩
    | cons e l' =>
      exfalso
      simp only [List.cons_append, List.cons.injEq] at h
      exact hx (h.1 ▸ List.mem_cons_self e l')
  | cons p pre' ih =>
    cases l with
    | nil =>
      exfalso
      simp only [List.nil_append, List.cons_append, List.cons.injEq] at h
      have := congrArg List.length h.2
      simp at this
      omega
    | cons e l' =>
      simp only [List.cons_append, List.cons.injEq] at h
      obtain ⟨rfl, h2⟩ := h
      have hx' : x ∉ l' := fun hm => hx (List.mem_cons_of_mem _ hm)
      obtain ⟨rfl, rfl, rfl⟩ := ih h2 hx'
      exact ⟨rfl, rfl, rfl⟩

/-- Core ordering lemma: wherever a `commit i` occurs in a Driver trace,
no `persist i` follows it, and every `persist i` before it is durable
once the prefix is replayed (from any starting state). -/
theorem runPairs_commit_split :
    ∀ (cs : List Cat) (s : Int) (pre suf : List Ev) (i : Int),
      runPairs s cs = pre ++ Ev.commit i :: suf →
      (∀ l, Ev.persist i l ∉ suf) ∧
      (∀ l, Ev.persist i l ∈ pre → ∀ st : DState, (i, l) ∈ (replay st pre).durable) := by
  intro cs
  induction cs with
  | nil =>
    intro s pre suf i h
    rw [runPairs] at h
    exact absurd h.symm (List.append_ne_nil_of_right_ne_nil pre (by simp))
  | cons c rest ih =>
    intro s pre suf i h
    rw [runPairs] at h
    by_cases hok : (catEvents s c).2 = true
    · have hok' : (attemptEvents s c.links c.attempts).2 = true := by
        simpa [catEvents] using hok
      rw [if_pos hok] at h
      have hcat : (catEvents s c).1 =
          (attemptEvents s c.links c.attempts).1 ++ [Ev.commit s] := by
        simp [catEvents, hok']
      rw [hcat, List.append_assoc] at h
      rcases List.append_eq_append_iff.mp h with ⟨a', ha1, ha2⟩ | ⟨c', hc1, hc2⟩
      · -- `pre` contains at least all the attempt events
        rcases a' with _ | ⟨x, a''⟩
        · -- boundary: the commit in the split is this category's own commit
          simp only [List.append_nil] at ha1
          simp only [List.nil_append, List.singleton_append, List.cons.injEq] at ha2
          have his : i = s := by
            have := ha2.1
            simp only [Ev.commit.injEq] at this
            omega
          have hsuf : suf = runPairs (s + 1) rest := ha2.2.symm
          constructor
          · intro l hmem
            rw [hsuf] at hmem
            have := persist_mem_runPairs_le hmem
            omega
          · intro l hmem st
            rw [ha1] at hmem ⊢
            have hlmem : l ∈ c.links := by
              rcases attemptEvents_mem s c.links c.attempts _ hmem
                with h' | h' | ⟨l', hl', h'⟩
              · simp at h'
              · simp at h'
              · simp only [Ev.persist.injEq] at h'
                exact h'.2 ▸ hl'
            have hdur := replay_success_attempt st s c.links c.attempts hok' l hlmem
            rw [his]
            exact hdur
        · -- this category's commit lies inside `pre`; the split commit is
          -- in a later category
          have hx : x = Ev.commit s := by
            simp only [List.cons_append, List.singleton_append, List.cons.injEq] at ha2
            exact ha2.1.symm
          subst hx
          have ha2' : runPairs (s + 1) rest = a'' ++ Ev.commit i :: suf := by
            simp only [List.cons_append, List.singleton_append, List.cons.injEq] at ha2
            exact ha2.2
          have hci : Ev.commit i ∈ runPairs (s + 1) rest := by
            rw [ha2']
            simp
          have hsle : s + 1 ≤ i := commit_mem_runPairs_le hci
          obtain ⟨hsuf, hpre⟩ := ih (s + 1) a'' suf i ha2'
          refine ⟨hsuf, ?_⟩
          intro l hmem st
          rw [ha1] at hmem
          have hmem' : Ev.persist i l ∈ a'' := by
            rcases List.mem_append.mp hmem with hmem | hmem
            · exfalso
              rcases attemptEvents_mem s c.links c.attempts _ hmem
                with h' | h' | ⟨l', _, h'⟩
              · simp at h'
              · simp at h'
              · simp only [Ev.persist.injEq] at h'
                omega
            · rcases List.mem_cons.mp hmem with hmem | hmem
              · exact absurd hmem (by simp)
              · exact hmem
          have hsplit : (attemptEvents s c.links c.attempts).1 ++ Ev.commit s :: a'' =
              ((attemptEvents s c.links c.attempts).1 ++ [Ev.commit s]) ++ a'' := by
            simp
          rw [ha1, hsplit, replay_append]
          exact hpre l hmem' _
      · -- `pre` ends inside the attempt events: only possible when the
        -- remainder starts exactly at this category's commit
        rw [← List.append_assoc] at hc2
        have hc2' : (Ev.commit i :: suf : List Ev) =
            c' ++ (Ev.commit s :: runPairs (s + 1) rest) := by
          simpa using hc2
        cases c' with
        | nil =>
          simp only [List.nil_append, List.cons.injEq] at hc2'
          have his : i = s := by
            have := hc2'.1
            simp only [Ev.commit.injEq] at this
            omega
          have hsuf : suf = runPairs (s + 1) rest := hc2'.2
          have hpre_eq : (attemptEvents s c.links c.attempts).1 = pre := by
            simpa using hc1
          constructor
          · intro l hmem
            rw [hsuf] at hmem
            have := persist_mem_runPairs_le hmem
            omega
          · intro l hmem st
            rw [← hpre_eq] at hmem ⊢
            have hlmem : l ∈ c.links := by
              rcases attemptEvents_mem s c.links c.attempts _ hmem
                with h' | h' | ⟨l', hl', h'⟩
              · simp at h'
              · simp at h'
              · simp only [Ev.persist.injEq] at h'
                exact h'.2 ▸ hl'
            have hdur := replay_success_attempt st s c.links c.attempts hok' l hlmem
            rw [his]
            exact hdur
        | cons y c'' =>
          exfalso
          simp only [List.cons.injEq] at hc2'
          obtain ⟨rfl, _⟩ := hc2'
          have hbad : Ev.commit i ∈ (attemptEvents s c.links c.attempts).1 := by
            rw [hc1]
            exact List.mem_append.mpr (Or.inr (List.mem_cons_self _ _))
          exact commit_not_mem_attemptEvents s i c.links c.attempts hbad
    · rw [if_neg hok] at h
      exfalso
      have hbad : Ev.commit i ∈ (catEvents s c).1 := by
        rw [h]
        simp
      simp only [catEvents, List.mem_append] at hbad
      rcases hbad with h' | h'
      · exact commit_not_mem_attemptEvents s i c.links c.attempts h'
      · have hok2 : ¬(attemptEvents s c.links c.attempts).2 = true := by
          simpa [catEvents] using hok
        rw [if_neg hok2] at h'
        simp at h'

/-! ### Checkpoint values along a trace -/

theorem headq_mem {α : Type _} {l : List α} {a : α} (h : l.head? = some a) : a ∈ l := by
  cases l with
  | nil => simp at h
  | cons b t =>
    simp only [List.head?_cons, Option.some_inj] at h
    exact h ▸ List.mem_cons_self b t

theorem lastq_mem {α : Type _} : ∀ {l : List α} {a : α}, l.getLast? = some a → a ∈ l := by
  intro l
  induction l with
  | nil => intro a h; simp at h
  | cons b t ih =>
    intro a h
    cases t with
    | nil =>
      simp only [List.getLast?_singleton, Option.some_inj] at h
      exact h ▸ List.mem_cons_self b []
    | cons c t' =>
      rw [List.getLast?_cons_cons] at h
      exact List.mem_cons_of_mem _ (ih h)

theorem lastq_none {α : Type _} : ∀ {l : List α}, l.getLast? = none → l = [] := by
  intro l
  induction l with
  | nil => intro _; rfl
  | cons b t ih =>
    intro h
    cases t with
    | nil => simp at h
    | cons c t' =>
      rw [List.getLast?_cons_cons] at h
      exact absurd (ih h) (by simp)

theorem commitsOf_append (a b : List Ev) :
    commitsOf (a ++ b) = commitsOf a ++ commitsOf b := by
  simp [commitsOf, List.filterMap_append]

theorem commitsOf_eq_nil_of_no_commit (l : List Ev) (h : ∀ i, Ev.commit i ∉ l) :
    commitsOf l = [] := by
  rw [List.eq_nil_iff_forall_not_mem]
  intro j hj
  rw [commitsOf, List.mem_filterMap] at hj
  obtain ⟨e, he, hme⟩ := hj
  cases e with
  | heartbeat i => simp at hme
  | persist i l' => simp at hme
  | flush => simp at hme
  | commit i => exact h i he

theorem commitsOf_attemptEvents (i : Int) (links : List String) (atts : List Bool) :
    commitsOf (attemptEvents i links atts).1 = [] :=
  commitsOf_eq_nil_of_no_commit _ (fun j => commit_not_mem_attemptEvents i j links atts)

theorem commitsOf_runPairs :
    ∀ (cs : List Cat) (s : Int),
      List.Chain' (· < ·) (commitsOf (runPairs s cs)) ∧
      ∀ j ∈ commitsOf (runPairs s cs), s ≤ j := by
  intro cs
  induction cs with
  | nil => intro s; simp [runPairs, commitsOf]
  | cons c rest ih =>
    intro s
    rw [runPairs]
    by_cases hok : (catEvents s c).2 = true
    · have hok' : (attemptEvents s c.links c.attempts).2 = true := by
        simpa [catEvents] using hok
      have hcat : (catEvents s c).1 =
          (attemptEvents s c.links c.attempts).1 ++ [Ev.commit s] := by
        simp [catEvents, hok']
      rw [if_pos hok, commitsOf_append, hcat, commitsOf_append,
        commitsOf_attemptEvents]
      have hsingle : commitsOf [Ev.commit s] = [s] := rfl
      rw [hsingle]
      simp only [List.nil_append, List.cons_append]
      obtain ⟨ihc, ihlb⟩ := ih (s + 1)
      constructor
      · rw [List.chain'_cons']
        refine ⟨?_, ihc⟩
        intro y hy
        have := ihlb y (headq_mem hy)
        omega
      · intro j hj
        rcases List.mem_cons.mp hj with rfl | hj
        · exact le_refl j
        · have := ihlb j hj
          omega
    · have hok' : ¬(attemptEvents s c.links c.attempts).2 = true := by
        simpa [catEvents] using hok
      rw [if_neg hok]
      have : commitsOf (catEvents s c).1 = [] := by
        have hcat : (catEvents s c).1 = (attemptEvents s c.links c.attempts).1 := by
          simp [catEvents, hok']
        rw [hcat, commitsOf_attemptEvents]
      rw [this]
      simp

theorem replay_file (evs : List Ev) :
    ∀ st : DState, (replay st evs).file =
      (commitsOf evs).foldl (fun _ j => some (intStr j)) st.file := by
  induction evs with
  | nil => intro st; rfl
  | cons e rest ih =>
    intro st
    cases e with
    | heartbeat i =>
      have h1 : replay st (Ev.heartbeat i :: rest) = replay st rest := rfl
      rw [h1, ih]
      rfl
    | persist i l =>
      have h1 : replay st (Ev.persist i l :: rest) =
          replay { st with buffer := st.buffer ++ [(i, l)] } rest := rfl
      rw [h1, ih]
      rfl
    | flush =>
      have h1 : replay st (Ev.flush :: rest) =
          replay { st with buffer := [], durable := st.durable ++ st.buffer } rest := rfl
      rw [h1, ih]
      rfl
    | commit j =>
      have h1 : replay st (Ev.commit j :: rest) =
          replay { st with file := some (intStr j) } rest := rfl
      rw [h1, ih]
      rfl

theorem foldl_commit_last (cs : List Int) :
    ∀ f0 : Option String,
      cs.foldl (fun _ j => some (intStr j)) f0 =
        match cs.getLast? with
        | some j => some (intStr j)
        | none => f0 := by
  induction cs with
  | nil => intro f0; rfl
  | cons c cs' ih =>
    intro f0
    rw [List.foldl_cons, ih]
    cases cs' with
    | nil => rfl
    | cons d ds =>
      rw [List.getLast?_cons_cons]
      cases h : (d :: ds).getLast? with
      | none => exact absurd (lastq_none h) (by simp)
      | some j => rfl

/-! ### The multi-run checkpoint invariant -/

/-- Relation between the progress file's content and the checkpoint
values committed so far: absent before any commit, and otherwise the
decimal rendering of the last committed value. -/
def FileRel (f : Option String) (done : List Int) : Prop :=
  (done = [] ∧ f = none) ∨
  ∃ m : Nat, done.getLast? = some (Int.ofNat m) ∧ f = some (natStr m)

theorem get_start_index_natStr (m : Nat) :
    get_start_index (some (natStr m)) = Int.ofNat m + 1 := by
  simp [get_start_index, loadCheckpoint, pyInt_natStr]

theorem driverRun_commits (fs : Option String) (cats : List Cat) :
    List.Chain' (· < ·) (commitsOf (driverRunFrom fs cats)) ∧
    ∀ j ∈ commitsOf (driverRunFrom fs cats), get_start_index fs ≤ j :=
  commitsOf_runPairs (pySliceFrom cats (get_start_index fs)) (get_start_index fs)

theorem run_segment_preserves (cats : List Cat) (st : DState) (done : List Int)
    (evs' : List Ev) (hpre : ∃ t, driverRunFrom st.file cats = evs' ++ t)
    (h1 : List.Chain' (· < ·) done) (h2 : FileRel st.file done) :
    List.Chain' (· < ·) (done ++ commitsOf evs') ∧
    FileRel (replay { st with buffer := [] } evs').file (done ++ commitsOf evs') := by
  obtain ⟨t, ht⟩ := hpre
  obtain ⟨hchF, hlbF⟩ := driverRun_commits st.file cats
  have hsplit : commitsOf (driverRunFrom st.file cats) =
      commitsOf evs' ++ commitsOf t := by
    rw [ht, commitsOf_append]
  have hch' : List.Chain' (· < ·) (commitsOf evs') := by
    rw [hsplit] at hchF
    exact hchF.left_of_append
  have hlb : ∀ j ∈ commitsOf evs', get_start_index st.file ≤ j := by
    intro j hj
    exact hlbF j (by rw [hsplit]; exact List.mem_append_left _ hj)
  have hfile : (replay { st with buffer := [] } evs').file =
      (commitsOf evs').foldl (fun _ j => some (intStr j)) st.file := by
    rw [replay_file]
  cases hlast : (commitsOf evs').getLast? with
  | none =>
    have hnil : commitsOf evs' = [] := lastq_none hlast
    rw [hnil, List.append_nil]
    refine ⟨h1, ?_⟩
    rw [hfile, hnil]
    exact h2
  | some j =>
    have hjmem : j ∈ commitsOf evs' := lastq_mem hlast
    have hjlb : get_start_index st.file ≤ j := hlb j hjmem
    have hne : commitsOf evs' ≠ [] := by
      intro hq
      rw [hq] at hjmem
      simp at hjmem
    have hlast2 : (done ++ commitsOf evs').getLast? = some j := by
      rw [List.getLast?_append_of_ne_nil done hne, hlast]
    have hfile2 : (replay { st with buffer := [] } evs').file = some (intStr j) := by
      rw [hfile, foldl_commit_last, hlast]
    rcases h2 with ⟨hd, hf⟩ | ⟨m, hlastd, hf⟩
    · -- first run ever: start index 0, all commits nonnegative
      have hstart : get_start_index st.file = 0 := by rw [hf]; rfl
      have hj0 : 0 ≤ j := by omega
      have hij : intStr j = natStr j.toNat := by
        cases j with
        | ofNat n => rfl
        | negSucc n => exact absurd hj0 (not_le.mpr (Int.negSucc_lt_zero n))
      subst hd
      rw [List.nil_append]
      refine ⟨hch', Or.inr ⟨j.toNat, ?_, ?_⟩⟩
      · rw [hlast]
        congr 1
        exact (Int.toNat_of_nonneg hj0).symm
      · rw [hfile2, hij]
    · -- resumed run: start index m + 1, so commits exceed m
      have hstart : get_start_index st.file = (m : Int) + 1 := by
        rw [hf, get_start_index_natStr]
        rfl
      have hjm : (m : Int) < j := by omega
      have hj0 : 0 ≤ j := by omega
      have hij : intStr j = natStr j.toNat := by
        cases j with
        | ofNat n => rfl
        | negSucc n => exact absurd hj0 (not_le.mpr (Int.negSucc_lt_zero n))
      constructor
      · refine List.Chain'.append h1 hch' ?_
        intro x hx y hy
        have hxm : (m : Int) = x := by
          rw [hlastd] at hx
          simpa using hx
        have hymem : y ∈ commitsOf evs' := headq_mem hy
        have hylb := hlb y hymem
        omega
      · refine Or.inr ⟨j.toNat, ?_, ?_⟩
        · rw [hlast2]
          congr 1
          exact (Int.toNat_of_nonneg hj0).symm
        · rw [hfile2, hij]

theorem exec_inv (cats : List Cat) :
    ∀ (items : List XItem) (st : DState) (done : List Int),
      (∀ s, XItem.corruptF s ∉ items) →
      List.Chain' (· < ·) done → FileRel st.file done →
      List.Chain' (· < ·) (items.foldl (execStep cats) (st, done)).2 ∧
      FileRel (items.foldl (execStep cats) (st, done)).1.file
        (items.foldl (execStep cats) (st, done)).2 := by
  intro items
  induction items with
  | nil => intro st done _ h1 h2; exact ⟨h1, h2⟩
  | cons it rest ih =>
    intro st done hnc h1 h2
    cases it with
    | corruptF s =>
      exact absurd (List.mem_cons_self _ _) (hnc s)
    | runTo cr =>
      rw [List.foldl_cons]
      have hnc' : ∀ s, XItem.corruptF s ∉ rest :=
        fun s hs => hnc s (List.mem_cons_of_mem _ hs)
      cases cr with
      | none =>
        have h' := run_segment_preserves cats st done (driverRunFrom st.file cats)
          ⟨[], by simp⟩ h1 h2
        exact ih _ _ hnc' h'.1 h'.2
      | some k =>
        have h' := run_segment_preserves cats st done
          ((driverRunFrom st.file cats).take k)
          ⟨(driverRunFrom st.file cats).drop k, (List.take_append_drop k _).symm⟩ h1 h2
        exact ih _ _ hnc' h'.1 h'.2

/-! ### Claim C1: resume correctness of the review Driver -/

theorem pySlice_width_le_one {α : Type _} (l : List α) (a : Int) :
    (pySlice l a (a + 1)).length ≤ 1 := by
  unfold pySlice pyIdx
  simp only [List.length_drop, List.length_take]
  split_ifs <;> omega

/-- Claim C1 (confirmed). At startup `main` computes its resume point
from the checkpoint file: when the checkpoint parses to `n`, the only
Work Unit the run iterates (and hence fetches) is the one at index
`n + 1` (when it exists), so no unit with index `≤ n` is ever re-fetched;
when the checkpoint is absent, processing starts at index 0. -/
theorem claim_C1_resume_correctness (fs : Option String) (reader : List String) :
    (∀ n : Nat, loadCheckpoint fs = some (n : Int) →
      (∀ i : Int, i ≤ (n : Int) → i ∉ run40Fetched fs reader) ∧
      ((run40Fetched fs reader).head? = some ((n : Int) + 1) ∨
        run40Fetched fs reader = [])) ∧
    (loadCheckpoint fs = none →
      ((run40Fetched fs reader).head? = some 0 ∨ run40Fetched fs reader = [])) := by
  have hkey : ∀ s : Int, get_start_index fs = s →
      run40Fetched fs reader = [] ∨ run40Fetched fs reader = [s] := by
    intro s hs
    have hw := pySlice_width_le_one reader s
    rcases Nat.le_one_iff_eq_zero_or_eq_one.mp hw with h0 | h1
    · left
      simp [run40Fetched, hs, h0]
    · right
      simp only [run40Fetched, hs, h1]
      rw [show List.range 1 = [0] from rfl]
      simp
  constructor
  · intro n hn
    have hs : get_start_index fs = (n : Int) + 1 := by
      unfold get_start_index
      rw [hn]
    rcases hkey _ hs with h | h
    · exact ⟨fun i _ => by rw [h]; simp, Or.inr h⟩
    · refine ⟨fun i hi => ?_, Or.inl (by rw [h]; rfl)⟩
      rw [h]
      simp only [List.mem_singleton]
      omega
  · intro hn
    have hs : get_start_index fs = 0 := by
      unfold get_start_index
      rw [hn]
    rcases hkey _ hs with h | h
    · exact Or.inr h
    · exact Or.inl (by rw [h]; rfl)

theorem claim_C1_witness :
    loadCheckpoint (some "4") = some ((4 : Nat) : Int) ∧
    ((∀ i : Int, i ≤ ((4 : Nat) : Int) →
        i ∉ run40Fetched (some "4") ["a", "b", "c", "d", "e", "f"]) ∧
      ((run40Fetched (some "4") ["a", "b", "c", "d", "e", "f"]).head? =
          some (((4 : Nat) : Int) + 1) ∨
        run40Fetched (some "4") ["a", "b", "c", "d", "e", "f"] = [])) := by
  have h : loadCheckpoint (some "4") = some ((4 : Nat) : Int) := by decide
  exact ⟨h, (claim_C1_resume_correctness (some "4") ["a", "b", "c", "d", "e", "f"]).1 4 h⟩

/-! ### Claim C10: corrupted checkpoints silently restart from 0 -/

def cats10 : List Cat := [⟨["a"], [true]⟩, ⟨["b"], [true]⟩]

def items10 : List XItem :=
  [XItem.runTo none, XItem.corruptF "oops", XItem.runTo none]

/-- Claim C10 (confirmed). `get_start_index` returns 0 both when the
progress file is absent and when it exists but does not parse as an
integer (the exception is swallowed); consequently, after the file is
corrupted a re-run restarts at index 0 and a later `update_progress`
writes a smaller index (here the execution commits 0, 1, then — after
corruption — 0, 1 again, which is not increasing). -/
theorem claim_C10_corrupt_checkpoint :
    get_start_index none = 0 ∧
    (∀ s : String, pyInt s = none → get_start_index (some s) = 0) ∧
    execCommits cats10 items10 = [0, 1, 0, 1] ∧
    ¬ List.Chain' (· < ·) (execCommits cats10 items10) := by
  have hc : execCommits cats10 items10 = [0, 1, 0, 1] := by decide
  refine ⟨rfl, ?_, hc, ?_⟩
  · intro s hs
    simp [get_start_index, loadCheckpoint, hs]
  · rw [hc]
    intro h
    rw [List.chain'_cons, List.chain'_cons] at h
    exact absurd h.2.1 (by omega)

theorem claim_C10_witness : get_start_index (some "###") = 0 :=
  claim_C10_corrupt_checkpoint.2.1 "###" (by decide)

/-! ### Claim C5: backoff monotonicity of `limited_get` -/

/-- Claim C5 (confirmed). The `limited_get` rate-limit delay
`min(60 * 2^(attempt-1), max_wait)` is non-decreasing in the attempt
number and bounded by the configured maximum (36000); and in every
reachable retry state of the loop the rate-limit delay is at least the
transient/exception delay `attempt * 5` for the same attempt number. -/
theorem claim_C5_backoff_monotonicity (a w : Nat) (script : List (Option String)) :
    (1 ≤ a → rateDelay 36000 a ≤ rateDelay 36000 (a + 1) ∧ rateDelay 36000 a ≤ 36000) ∧
    (limited_get_run 36000 script = LG.going a w → transientDelay a ≤ rateDelay 36000 a) := by
  constructor
  · intro _
    constructor
    · unfold rateDelay
      apply min_le_min _ (le_refl (36000 : Nat))
      apply mul_le_mul_left'
      exact Nat.pow_le_pow_right (by norm_num) (by omega)
    · exact min_le_right _ _
  · intro hrun
    have hinv := limited_get_run_inv 36000 (by norm_num) script
    rw [hrun] at hinv
    obtain ⟨h1, h2, h3⟩ := hinv
    have hpow : a < 2 ^ a := Nat.lt_two_pow a
    have hsplit : 2 ^ a = 2 * 2 ^ (a - 1) := by
      conv_lhs => rw [show a = a - 1 + 1 by omega]
      rw [pow_succ]
      ring
    unfold transientDelay rateDelay
    apply le_min
    · have h10 : a ≤ 2 * 2 ^ (a - 1) := by omega
      calc a * 5 ≤ 2 * 2 ^ (a - 1) * 5 := mul_le_mul_right' h10 5
        _ = 10 * 2 ^ (a - 1) := by ring
        _ ≤ 60 * 2 ^ (a - 1) := mul_le_mul_right' (by norm_num) _
    · omega

theorem claim_C5_witness :
    (rateDelay 36000 1 ≤ rateDelay 36000 2 ∧ rateDelay 36000 1 ≤ 36000) ∧
    transientDelay 1 ≤ rateDelay 36000 1 :=
  ⟨(claim_C5_backoff_monotonicity 1 0 []).1 (le_refl 1),
    (claim_C5_backoff_monotonicity 1 0 []).2 rfl⟩

/-! ### Claim C4: bounded waiting

`limited_get` is indeed bounded (amended theorem), but the Driver's
per-category retry loop is not: it retries until success, so its total
wait exceeds any bound (counterexample). -/

theorem min_backoff_eq_sixty {k : Nat} (hk : 4 ≤ k) : min 60 (5 * 2 ^ k) = 60 := by
  have h16 : (16 : Nat) ≤ 2 ^ k := by
    calc (16 : Nat) = 2 ^ 4 := by norm_num
      _ ≤ 2 ^ k := Nat.pow_le_pow_right (by norm_num) hk
  have h80 : (80 : Nat) ≤ 5 * 2 ^ k := by
    calc (80 : Nat) = 5 * 16 := by norm_num
      _ ≤ 5 * 2 ^ k := mul_le_mul_left' h16 5
  omega

theorem category_retry_all_false (n : Nat) :
    ∀ k, 4 ≤ k → category_retry_loop k (List.replicate n false) = (false, 60 * n) := by
  induction n with
  | zero => intro k _; simp [category_retry_loop]
  | succ m ih =>
    intro k hk
    have hd := min_backoff_eq_sixty hk
    have hr := ih (k + 1) (by omega)
    rw [List.replicate_succ]
    simp [category_retry_loop, hd, hr]
    omega

theorem category_retry_from_zero (n : Nat) :
    category_retry_loop 0 (List.replicate (n + 4) false) = (false, 75 + 60 * n) := by
  have h4 := category_retry_all_false n 4 (le_refl 4)
  have hrep : List.replicate (n + 4) false =
      false :: false :: false :: false :: List.replicate n false := by
    rw [Nat.add_comm, List.replicate_add]
    rfl
  rw [hrep]
  simp [category_retry_loop, h4]
  omega

/-- Claim C4 counterexample: after 700 consecutive failures (4 + 696),
the category retry loop of `scrape_all_categories_products` has slept a
total of 41835 seconds — more than the Fetcher's configured maximum
total wait of 36000 — and is still retrying (`success = false`), with no
terminal failure surfaced. -/
theorem claim_C4_counterexample :
    category_retry_loop 0 (List.replicate 700 false) = (false, 41835) ∧
    36000 < 41835 := by
  constructor
  · have h := category_retry_from_zero 696
    have he : (696 + 4 : Nat) = 700 := by norm_num
    rw [he] at h
    rw [h]
  · norm_num

/-- Claim C4 amended: the Fetcher (`limited_get`) does wait a bounded
total time — less than `max_wait = 36000` seconds on every script — and
a cap-exceeding backoff makes the loop break and surface `None`; but the
Driver's per-category retry loop has no total-wait bound (see the
counterexample). -/
theorem claim_C4_amended :
    (∀ script : List (Option String), sleptOf (limited_get_run 36000 script) < 36000) ∧
    (∀ (a w : Nat) (s : String), isRateBody s = true →
      36000 ≤ w + rateDelay 36000 a →
      lgStep 36000 (LG.going a w) (some s) = LG.done none w) ∧
    (∀ a w : Nat, 36000 ≤ w + transientDelay a →
      lgStep 36000 (LG.going a w) none = LG.done none w) := by
  refine ⟨?_, ?_, ?_⟩
  · intro script
    have hinv := limited_get_run_inv 36000 (by norm_num) script
    cases h : limited_get_run 36000 script with
    | going a' w' =>
      rw [h] at hinv
      simpa [sleptOf] using hinv.2.2
    | done r w' =>
      rw [h] at hinv
      simpa [sleptOf] using hinv
  · intro a w s hrs hcap
    simp [lgStep, hrs, hcap]
  · intro a w hcap
    simp [lgStep, hcap]

theorem claim_C4_witness :
    sleptOf (limited_get_run 36000 []) < 36000 ∧
    lgStep 36000 (LG.going 1 35940) (some "429") = LG.done none 35940 :=
  ⟨claim_C4_amended.1 [],
    claim_C4_amended.2.1 1 35940 "429" (by decide) (by decide)⟩

/-! ### Claim C3: persist-before-checkpoint ordering -/

/-- Claim C3 (confirmed). In every Driver trace, wherever
`update_progress(i)` (the `commit i` event) occurs, no record write of
unit `i` follows it, and every record of unit `i` written before it is
durably persisted (buffered rows are flushed) once the prefix of the
trace before the commit has executed. -/
theorem claim_C3_persist_before_checkpoint (fs : Option String) (cats : List Cat)
    (pre suf : List Ev) (i : Int)
    (h : driverRunFrom fs cats = pre ++ Ev.commit i :: suf) :
    (∀ l, Ev.persist i l ∉ suf) ∧
    (∀ l, Ev.persist i l ∈ pre → ∀ st : DState, (i, l) ∈ (replay st pre).durable) :=
  runPairs_commit_split (pySliceFrom cats (get_start_index fs))
    (get_start_index fs) pre suf i h

def cats3w : List Cat := [⟨["a"], [true]⟩, ⟨["b"], [true]⟩]

theorem claim_C3_witness :
    Ev.persist 0 "a" ∉ [Ev.heartbeat 1, Ev.persist 1 "b", Ev.flush, Ev.commit 1] ∧
    ((0 : Int), "a") ∈ (replay dInit [Ev.heartbeat 0, Ev.persist 0 "a", Ev.flush]).durable := by
  have h : driverRunFrom none cats3w =
      [Ev.heartbeat 0, Ev.persist 0 "a", Ev.flush] ++
        Ev.commit 0 :: [Ev.heartbeat 1, Ev.persist 1 "b", Ev.flush, Ev.commit 1] := by
    decide
  have hc := claim_C3_persist_before_checkpoint none cats3w _ _ 0 h
  exact ⟨hc.1 "a", hc.2 "a" (by decide) dInit⟩

/-! ### Claim C2: checkpoint monotonicity -/

def cats2c : List Cat := [⟨["a"], [true]⟩, ⟨["b"], [true]⟩]

/-- Claim C2 counterexample: crash the Driver right after Work Unit 1's
records are flushed but before `update_progress(1)` runs (event 7 of 8).
The checkpoint file then still holds "0" while unit 1's only record "b"
is already durably persisted, so the stored value (0) does not equal the
highest Work Unit index whose records have all been durably persisted
(1) — refuting the "at every point it equals" part of the claim. -/
theorem claim_C2_counterexample :
    loadCheckpoint (replay dInit ((driverRunFrom none cats2c).take 7)).file = some 0 ∧
    ((1 : Int), "b") ∈ (replay dInit ((driverRunFrom none cats2c).take 7)).durable ∧
    (0 : Int) ≠ 1 := by
  refine ⟨by decide, by decide, by decide⟩

/-- Claim C2 amended: across every execution made of Driver runs
(crashes and restarts included) in which the checkpoint file is not
corrupted externally, the sequence of values committed to the checkpoint
file is strictly increasing; and whenever index `i` is committed, every
record of unit `i` written in that trace is durably persisted at the
commit point. (The stored value is thus a lower bound on completed
units; in the crash window between a unit's flush and its commit it can
lag strictly below the highest fully persisted unit index.) -/
theorem claim_C2_amended :
    (∀ (cats : List Cat) (items : List XItem),
        (∀ s, XItem.corruptF s ∉ items) →
        List.Chain' (· < ·) (execCommits cats items)) ∧
    (∀ (fs : Option String) (cats : List Cat) (pre suf : List Ev) (i : Int),
        driverRunFrom fs cats = pre ++ Ev.commit i :: suf →
        ∀ l, Ev.persist i l ∈ driverRunFrom fs cats →
          ∀ st : DState, (i, l) ∈ (replay st pre).durable) := by
  constructor
  · intro cats items hnc
    exact (exec_inv cats items dInit [] hnc (by simp) (Or.inl ⟨rfl, rfl⟩)).1
  · intro fs cats pre suf i h l hmem st
    obtain ⟨hsuf, hpre⟩ := runPairs_commit_split (pySliceFrom cats (get_start_index fs))
      (get_start_index fs) pre suf i h
    rw [h] at hmem
    rcases List.mem_append.mp hmem with hmem | hmem
    · exact hpre l hmem st
    · rcases List.mem_cons.mp hmem with hmem | hmem
      · exact absurd hmem (by simp)
      · exact absurd hmem (hsuf l)

def cats2w : List Cat := [⟨["x"], [true]⟩, ⟨["y"], [false, true]⟩]

theorem claim_C2_witness :
    execCommits cats2w [XItem.runTo none] = [0, 1] ∧
    List.Chain' (· < ·) (execCommits cats2w [XItem.runTo none]) := by
  refine ⟨by decide, ?_⟩
  exact claim_C2_amended.1 cats2w [XItem.runTo none]
    (by intro s hs; simp at hs)

/-! ### Claim C6: pagination discovery -/

theorem le_foldl_max (l : List Nat) :
    ∀ a n : Nat, (n ∈ l ∨ n ≤ a) → n ≤ l.foldl max a := by
  induction l with
  | nil =>
    intro a n h
    rcases h with h | h
    · simp at h
    · simpa using h
  | cons b t ih =>
    intro a n h
    rw [List.foldl_cons]
    rcases h with h | h
    · rcases List.mem_cons.mp h with rfl | h
      · exact ih (max a n) n (Or.inr (le_max_right a n))
      · exact ih (max a b) n (Or.inl h)
    · exact ih (max a b) n (Or.inr (le_trans h (le_max_left a b)))

def mkLi (s : String) : Html := Html.tag "li" [] (hl [Html.text s])

def pageSecondLast : Html :=
  Html.tag "html" [] (hl
    [Html.tag "ul" [("class", "pagination")] (hl [mkLi "2", mkLi "5"])])

def pageZeroMarker : Html :=
  Html.tag "html" [] (hl
    [Html.tag "ul" [("class", "pagination")] (hl
      [Html.tag "li" [] (hl
        [Html.tag "a" [("href", "/x?page=0")] (hl [Html.text "0"])])])])

/-- Claim C6 counterexample: on a navigation control whose `li` items
read "2" and "5", the numeric markers are 2 and 5 (maximum 5,
`specMaxNumericMarker` follows the spec's words), yet
`extract_pagination_info` returns 2 — the second-last `li`'s value, not
the maximum. And on a control whose only anchor href carries `page=0`,
`get_max_pages` returns 0, refuting "an integer page count that is at
least 1". -/
theorem claim_C6_counterexample :
    extract_pagination_info pageSecondLast = 2 ∧
    specMaxNumericMarker pageSecondLast = 5 ∧
    (2 : Int) ≠ 5 ∧
    get_max_pages pageZeroMarker = 0 ∧
    ¬ (1 ≤ get_max_pages pageZeroMarker) := by
  refine ⟨by decide, by decide, by decide, by decide, by decide⟩

/-- Claim C6 amended: when no navigation control is present both
discoverers return exactly 1; `get_max_pages` returns the maximum
`page=` marker among the control's anchor hrefs (1 when there are none),
which is an upper bound of every observed marker but can be 0;
`extract_pagination_info` returns the integer parsed from the text of
the second-last `li` item (1 when there are fewer than two items or the
text does not parse), which need not be the maximum marker. -/
theorem claim_C6_amended (page : Html) :
    (findFirst ulPaginationSel page = none →
      extract_pagination_info page = 1 ∧ get_max_pages page = 1) ∧
    (∀ pag, findFirst ulPaginationSel page = some pag →
      (hrefMarkers pag = [] → get_max_pages page = 1) ∧
      (hrefMarkers pag ≠ [] →
        get_max_pages page = Int.ofNat ((hrefMarkers pag).foldl max 0) ∧
        ∀ n ∈ hrefMarkers pag, (n : Int) ≤ get_max_pages page) ∧
      (∀ li_items, li_items = findAll (hasName "li") pag →
        2 ≤ li_items.length →
        extract_pagination_info page =
          match pyInt (getText (li_items.getD (li_items.length - 2) (Html.text ""))) with
          | some n => n
          | none => 1)) := by
  constructor
  · intro h
    constructor
    · simp [extract_pagination_info, h]
    · simp [get_max_pages, h]
  · intro pag hp
    refine ⟨?_, ?_, ?_⟩
    · intro hm
      simp [get_max_pages, hp, hm]
    · intro hm
      have hval : get_max_pages page = Int.ofNat ((hrefMarkers pag).foldl max 0) := by
        cases hC : hrefMarkers pag with
        | nil => exact absurd hC hm
        | cons a t =>
          simp only [get_max_pages, hp]
          rw [hC]
      refine ⟨hval, ?_⟩
      intro n hn
      rw [hval]
      exact Int.ofNat_le.mpr (le_foldl_max (hrefMarkers pag) 0 n (Or.inl hn))
    · intro li_items hli hlen
      simp only [extract_pagination_info, hp, ← hli, if_pos hlen]

def ulC6w : Html :=
  Html.tag "ul" [("class", "pagination")] (hl
    [Html.tag "a" [("href", "?page=3")] (hl [Html.text "3"]),
     Html.tag "a" [("href", "?page=7")] (hl [Html.text "7"])])

def pageC6w : Html := Html.tag "html" [] (hl [ulC6w])

theorem claim_C6_witness :
    (extract_pagination_info (Html.text "nonav") = 1 ∧
      get_max_pages (Html.text "nonav") = 1) ∧
    get_max_pages pageC6w = Int.ofNat ((hrefMarkers ulC6w).foldl max 0) ∧
    ((3 : Nat) : Int) ≤ get_max_pages pageC6w := by
  refine ⟨(claim_C6_amended (Html.text "nonav")).1 rfl, ?_, ?_⟩
  · exact (((claim_C6_amended pageC6w).2 ulC6w rfl).2.1 (by decide)).1
  · exact (((claim_C6_amended pageC6w).2 ulC6w rfl).2.1 (by decide)).2 3 (by decide)

/-! ### Claim C7: partial-record tolerance of `extract_reviews` (3.0) -/

/-- Claim C7 (confirmed). One Record is produced per candidate (direct
child tag of the review container) — candidates are never omitted — and
a missing expected sub-element yields the empty string in the
corresponding field, independently of the other fields. -/
theorem claim_C7_partial_record_tolerance (page : Html) (r : Html) :
    (extract_reviews_v3 page).length = (candidates page).length ∧
    extract_reviews_v3 page = (candidates page).map extractOne30 ∧
    (findFirst nameSel r = none → (extractOne30 r).name = "") ∧
    (findFirst roleSel r = none → (extractOne30 r).rawRole = "") ∧
    (findFirst infoSel r = none →
      (extractOne30 r).rawIndustryEmp = "" ∧ (extractOne30 r).useDuration = "") ∧
    (findFirst colLg7Sel r = none → (extractOne30 r).rating = "") ∧
    (∀ d, findFirst colLg7Sel r = some d → findFirst ms1SpanSel d = none →
      (extractOne30 r).rating = "") := by
  refine ⟨by simp [extract_reviews_v3], rfl, ?_, ?_, ?_, ?_, ?_⟩
  · intro h
    simp [extractOne30, h]
  · intro h
    simp [extractOne30, h]
  · intro h
    constructor <;> simp [extractOne30, infoFields, h]
  · intro h
    simp [extractOne30, h]
  · intro d hd hnone
    simp [extractOne30, hd, hnone]

theorem claim_C7_witness :
    (extractOne30 (Html.tag "div" [] HtmlList.nil)).name = "" ∧
    (extractOne30 (Html.tag "div" [] HtmlList.nil)).rawRole = "" ∧
    (extractOne30 (Html.tag "div" [] HtmlList.nil)).rawIndustryEmp = "" ∧
    (extractOne30 (Html.tag "div" [] HtmlList.nil)).useDuration = "" ∧
    (extractOne30 (Html.tag "div" [] HtmlList.nil)).rating = "" :=
  have h := claim_C7_partial_record_tolerance (Html.text "")
    (Html.tag "div" [] HtmlList.nil)
  ⟨h.2.2.1 rfl, h.2.2.2.1 rfl, (h.2.2.2.2.1 rfl).1, (h.2.2.2.2.1 rfl).2,
    h.2.2.2.2.2.1 rfl⟩

/-! ### Claim C8: extractor idempotence/determinism -/

/-- Claim C8 (confirmed). The extractors are pure functions of the page
body in this embedding — two invocations on the same body yield
identical Record sequences — and each is exactly a map of the per-review
extraction over the container's candidate children, so the sequence is
finite and restartable. -/
theorem claim_C8_extract_deterministic (page : Html) :
    extract_reviews_v3 page = extract_reviews_v3 page ∧
    extract_reviews_v4 page = extract_reviews_v4 page ∧
    extract_reviews_v3 page = (candidates page).map extractOne30 ∧
    extract_reviews_v4 page = (candidates page).map extractOne40 ∧
    extract_reviews_v2 page = (candidates page).map extractOne20 :=
  ⟨rfl, rfl, rfl, rfl, rfl⟩

/-! ### Claim C9: the 2.0 pagination loop duplicates page 1 -/

theorem pyRange_cons {a b : Int} (h : a < b) :
    pyRange a b = a :: pyRange (a + 1) b := by
  unfold pyRange
  rw [if_pos h]
  by_cases h2 : a + 1 < b
  · rw [if_pos h2]
    have hn : (b - a).toNat = (b - (a + 1)).toNat + 1 := by omega
    rw [hn, List.range_succ_eq_map, List.map_cons, List.map_map]
    congr 1
    · simp
    · apply List.map_congr_left
      intro k _
      simp [Function.comp]
      omega
  · rw [if_neg h2]
    have hn : (b - a).toNat = 1 := by omega
    rw [hn]
    rw [show List.range 1 = [0] from rfl]
    simp

/-- Claim C9 (confirmed). In `scraping_reviews_2.0`, when the main review
page fetch succeeds and the page-1 re-fetch (`{link}?page=1`) serves the
same body, the pagination loop — which iterates from page 1, not page
2 — extracts the first page a second time, so the product's output rows
start with the first page's records twice. -/
theorem claim_C9_duplicate_first_page (oracle : String → Option Html)
    (cat link : String) (body : Html)
    (h1 : oracle link = some body)
    (h2 : oracle (link ++ "?page=1") = some body)
    (h3 : 1 ≤ extract_pagination_info body) :
    ∃ rest, processProduct20 oracle cat link =
      ((extract_reviews_v2 body).map (fun r => (cat, link, r))) ++
      ((extract_reviews_v2 body).map (fun r => (cat, link, r))) ++ rest := by
  have hcons : pyRange 1 (extract_pagination_info body + 1) =
      1 :: pyRange 2 (extract_pagination_info body + 1) := by
    have hc := pyRange_cons (a := 1) (b := extract_pagination_info body + 1) (by omega)
    simpa using hc
  have hone : intStr 1 = "1" := by decide
  have hurl : link ++ "?page=" ++ intStr 1 = link ++ "?page=1" := by
    rw [hone, String.append_assoc]
    congr 1
  simp only [processProduct20, h1, hcons, List.flatMap_cons, hurl, h2]
  exact ⟨_, by rw [List.append_assoc]⟩

def bodyC9 : Html :=
  Html.tag "html" [] (hl
    [Html.tag "div" [("id", "reviews")] (hl [Html.tag "div" [] HtmlList.nil])])

def oracleC9 : String → Option Html :=
  fun u => if u == "L" || u == "L?page=1" then some bodyC9 else none

theorem claim_C9_witness :
    ∃ rest, processProduct20 oracleC9 "C" "L" =
      ((extract_reviews_v2 bodyC9).map (fun r => ("C", "L", r))) ++
      ((extract_reviews_v2 bodyC9).map (fun r => ("C", "L", r))) ++ rest :=
  claim_C9_duplicate_first_page oracleC9 "C" "L" bodyC9
    (by simp [oracleC9])
    (by
      have hu : ("L" ++ "?page=1" : String) = "L?page=1" := by decide
      rw [hu]
      simp [oracleC9])
    (by decide)

end CTScraper
